import Mathlib

/-!
Shallow embedding of the `ord_subset` crate (Emerentius/ord_subset).

Slices are modelled as `List α`, the `OrdSubset` trait as an explicit dictionary
holding the type's `PartialOrd::partial_cmp` together with `is_outside_order`.
`Result<usize, usize>` is modelled as `Except Nat Nat` (`ok` = `Ok`, `error` = `Err`),
and a Rust `panic!` of a modelled function is an `Option.none` result.

The crate delegates to the standard library sort and binary-search primitives:
`<[T]>::sort_by` / `sort_unstable_by` are modelled by a comparison sort
(insertion sort) realising their documented contract (output sorted by the
comparator and a permutation of the input), and `binary_search_by` is translated
from the core library's `base`/`size` loop.
-/

/-- The `OrdSubset` trait (src/ord_subset_trait.rs): `partial_cmp` is the inherited
`PartialOrd::partial_cmp` of the implementing type, `is_outside_order` the single
required method. -/
structure OrdSubset (α : Type) where
  partial_cmp : α → α → Option Ordering
  is_outside_order : α → Bool

/-- Models `a.partial_cmp(b).expect(..)` (`CmpUnwrap::cmp_unwrap`,
src/ord_subset_trait.rs): the `None` case panics in Rust; in every use below it is
unreachable under the `OrdSubset` contract, the default value merely totalises the
function. -/
def cmp_unwrap (os : OrdSubset α) (a b : α) : Ordering :=
  (os.partial_cmp a b).getD Ordering.eq

/-- Comparator wrapper from src/slice_ext.rs lines 12-25: values outside order are
treated as greater than any ordered value, and as equal among themselves. The
predicate `ios` stands for the `is_outside_order` method of the `OrdSubset`
dictionary in use (for the `_by_key` operations it is applied to projected keys). -/
def compare_unordered_greater_everything (ios : α → Bool) (compare : α → α → Ordering)
    (a b : α) : Ordering :=
  match ios a, ios b with
  | true, true => Ordering.eq
  | true, false => Ordering.gt
  | false, true => Ordering.lt
  | false, false => compare a b

/-- Models `<[T]>::sort_by` of the standard library: a stable comparison sort; an
insertion sort realises the documented contract the crate relies on (output sorted
by the comparator whenever the comparator is a total preorder, and a permutation of
the input). -/
def sort_by (compare : α → α → Ordering) (l : List α) : List α :=
  List.insertionSort (fun a b => compare a b ≠ Ordering.gt) l

/-- Models `<[T]>::sort_unstable_by`: same documented contract as `sort_by` except
stability, which no claim below depends on. -/
def sort_unstable_by (compare : α → α → Ordering) (l : List α) : List α :=
  List.insertionSort (fun a b => compare a b ≠ Ordering.gt) l

/-- `ord_subset_sort_by` (src/slice_ext.rs lines 187-194). -/
def ord_subset_sort_by (os : OrdSubset α) (compare : α → α → Ordering) (l : List α) :
    List α :=
  sort_by (fun a b => compare_unordered_greater_everything os.is_outside_order compare a b) l

/-- `ord_subset_sort` (src/slice_ext.rs lines 180-184). -/
def ord_subset_sort (os : OrdSubset α) (l : List α) : List α :=
  ord_subset_sort_by os (fun a b => cmp_unwrap os a b) l

/-- `ord_subset_sort_rev` (src/slice_ext.rs lines 197-201): reverses the arguments
of the inner comparison only. -/
def ord_subset_sort_rev (os : OrdSubset α) (l : List α) : List α :=
  ord_subset_sort_by os (fun a b => cmp_unwrap os b a) l

/-- `ord_subset_sort_by_key` (src/slice_ext.rs lines 204-212): `os` is the
`OrdSubset` dictionary of the key type `B`. -/
def ord_subset_sort_by_key (os : OrdSubset β) (f : α → β) (l : List α) : List α :=
  sort_by (fun a b =>
    compare_unordered_greater_everything os.is_outside_order
      (fun x y => cmp_unwrap os x y) (f a) (f b)) l

/-- `ord_subset_sort_unstable` (src/slice_ext.rs lines 214-218). -/
def ord_subset_sort_unstable (os : OrdSubset α) (l : List α) : List α :=
  sort_unstable_by
    (fun a b => compare_unordered_greater_everything os.is_outside_order
      (fun x y => cmp_unwrap os x y) a b) l

/-- `ord_subset_sort_unstable_by` (src/slice_ext.rs lines 220-227). -/
def ord_subset_sort_unstable_by (os : OrdSubset α) (compare : α → α → Ordering)
    (l : List α) : List α :=
  sort_unstable_by
    (fun a b => compare_unordered_greater_everything os.is_outside_order compare a b) l

/-- `ord_subset_sort_unstable_rev` (src/slice_ext.rs lines 228-232). -/
def ord_subset_sort_unstable_rev (os : OrdSubset α) (l : List α) : List α :=
  ord_subset_sort_unstable_by os (fun a b => cmp_unwrap os b a) l

/-- `ord_subset_sort_unstable_by_key` (src/slice_ext.rs lines 234-242). -/
def ord_subset_sort_unstable_by_key (os : OrdSubset β) (f : α → β) (l : List α) :
    List α :=
  sort_unstable_by (fun a b =>
    compare_unordered_greater_everything os.is_outside_order
      (fun x y => cmp_unwrap os x y) (f a) (f b)) l

/-- Loop of the core library's `<[T]>::binary_search_by`, translated from its
`while size > 1 { let half = size / 2; let mid = base + half; base = if f(mid) ==
Greater { base } else { mid }; size -= half; }` followed by the final probe at
`base`. The `fuel` argument merely bounds the iteration count: the function is
always called with `size ≤ fuel`, which the loop preserves, so the `fuel = 0`
branch is never taken. -/
def bsGo (g : Nat → Ordering) : Nat → Nat → Nat → Except Nat Nat
  | 0, base, _ => Except.error base
  | fuel + 1, base, size =>
    if size ≤ 1 then
      match g base with
      | Ordering.eq => Except.ok base
      | Ordering.lt => Except.error (base + 1)
      | Ordering.gt => Except.error base
    else
      let half := size / 2
      let mid := base + half
      match g mid with
      | Ordering.gt => bsGo g fuel base (size - half)
      | _ => bsGo g fuel mid (size - half)

/-- Probe of the comparison closure at index `i`; every probe issued by `bsGo` is
in bounds, so the out-of-range default is never consulted. -/
def probe (f : α → Ordering) (s : List α) (i : Nat) : Ordering :=
  match s.get? i with
  | some v => f v
  | none => Ordering.eq

/-- `<[T]>::binary_search_by` of the core library. -/
def binary_search_by (f : α → Ordering) (s : List α) : Except Nat Nat :=
  if s.length = 0 then Except.error 0
  else bsGo (probe f s) s.length 0 s.length

/-- `ord_subset_binary_search_by` (src/slice_ext.rs lines 253-263): values outside
order compare as `Greater` unconditionally, the caller's closure is only invoked
on values inside the total order. -/
def ord_subset_binary_search_by (os : OrdSubset α) (f : α → Ordering) (s : List α) :
    Except Nat Nat :=
  binary_search_by (fun other =>
    match os.is_outside_order other with
    | true => Ordering.gt
    | false => f other) s

/-- `ord_subset_binary_search` (src/slice_ext.rs lines 244-251): panics (`none`)
when the searched-for value is outside the total order. -/
def ord_subset_binary_search (os : OrdSubset α) (x : α) (s : List α) :
    Option (Except Nat Nat) :=
  if os.is_outside_order x then none
  else some (ord_subset_binary_search_by os (fun other => cmp_unwrap os other x) s)

/-- `ord_subset_binary_search_rev` (src/slice_ext.rs lines 276-283): like
`ord_subset_binary_search` with the argument order of the inner comparison
swapped. -/
def ord_subset_binary_search_rev (os : OrdSubset α) (x : α) (s : List α) :
    Option (Except Nat Nat) :=
  if os.is_outside_order x then none
  else some (ord_subset_binary_search_by os (fun other => cmp_unwrap os x other) s)

/-- `ord_subset_binary_search_by_key` (src/slice_ext.rs lines 265-274): `os` is the
`OrdSubset` dictionary of the key type `B`; panics (`none`) when the searched-for
key is outside the total order. -/
def ord_subset_binary_search_by_key (os : OrdSubset β) (b : β) (f : α → β)
    (s : List α) : Option (Except Nat Nat) :=
  if os.is_outside_order b then none
  else some (binary_search_by (fun k =>
    compare_unordered_greater_everything os.is_outside_order
      (fun x y => cmp_unwrap os x y) (f k) b) s)

/-- The `OrdVar` wrapper (src/ord_var.rs): a transparent single-field wrapper. -/
structure OrdVar (α : Type) where
  val : α

/-- `OrdVar::new` (src/ord_var.rs lines 29-34): panics (`none`) when the argument
is outside the total order. -/
def OrdVar.new (os : OrdSubset α) (data : α) : Option (OrdVar α) :=
  if os.is_outside_order data then none else some ⟨data⟩

/-- `OrdVar::new_checked` (src/ord_var.rs lines 38-45). -/
def OrdVar.new_checked (os : OrdSubset α) (data : α) : Option (OrdVar α) :=
  match os.is_outside_order data with
  | true => none
  | false => some ⟨data⟩

/-- `OrdVar::new_unchecked` (src/ord_var.rs lines 50-52). -/
def OrdVar.new_unchecked (data : α) : OrdVar α :=
  ⟨data⟩

/-- `OrdVar::into_inner` (src/ord_var.rs lines 55-57). -/
def OrdVar.into_inner (v : OrdVar α) : α :=
  v.val

/-- `Ord::cmp` for `OrdVar` (src/ord_var.rs lines 62-67): the derived
`partial_cmp` of the wrapper delegates to the wrapped values, and the `None` case
panics; the default value merely totalises the function and is unreachable for
wrappers holding values inside the total order. -/
def OrdVar.cmp (os : OrdSubset α) (a b : OrdVar α) : Ordering :=
  (os.partial_cmp a.val b.val).getD Ordering.eq

/-- Models `Iterator::max` (used via `Ord::cmp` on the wrappers): reduce keeping
the later element on exact ties. -/
def iterator_max (cmp : β → β → Ordering) : List β → Option β
  | [] => none
  | x :: xs => some (xs.foldl (fun acc y => if cmp y acc = Ordering.lt then acc else y) x)

/-- Models `Iterator::min`: reduce keeping the earlier element on exact ties. -/
def iterator_min (cmp : β → β → Ordering) : List β → Option β
  | [] => none
  | x :: xs => some (xs.foldl (fun acc y => if cmp y acc = Ordering.lt then y else acc) x)

/-- `partial_max` (src/iter_ext.rs lines 109-113): filter-map through
`OrdVar::new_checked`, take the `max`, unwrap. -/
def partial_max (os : OrdSubset α) (l : List α) : Option α :=
  (iterator_max (OrdVar.cmp os) (l.filterMap (OrdVar.new_checked os))).map
    OrdVar.into_inner

/-- `partial_min` (src/iter_ext.rs lines 115-119). -/
def partial_min (os : OrdSubset α) (l : List α) : Option α :=
  (iterator_min (OrdVar.cmp os) (l.filterMap (OrdVar.new_checked os))).map
    OrdVar.into_inner

/-- `partial_max` of the legacy `AlmostOrdIterExt` (src/lib.rs lines 214-219):
filter by `is_on_order`, wrap unchecked (the legacy `OrderedVal` wrapper is the
same single-field wrapper), take the `max`, unwrap. -/
def legacy_partial_max (os : OrdSubset α) (l : List α) : Option α :=
  (iterator_max (OrdVar.cmp os)
    ((l.filter (fun x => !os.is_outside_order x)).map OrdVar.new_unchecked)).map
    OrdVar.into_inner

/-- `partial_min` of the legacy `AlmostOrdIterExt` (src/lib.rs lines 221-226). -/
def legacy_partial_min (os : OrdSubset α) (l : List α) : Option α :=
  (iterator_min (OrdVar.cmp os)
    ((l.filter (fun x => !os.is_outside_order x)).map OrdVar.new_unchecked)).map
    OrdVar.into_inner

/-- Comparator of the legacy `partial_sort` (src/lib.rs lines 104-119): tries
`partial_cmp` first and dispatches on `is_outside_order` only when it returns
`None`; note that two values outside order are ranked `Greater`, not `Equal`.
The `(false, false)` row is `unreachable!()` (a panic) in the source; its value
is never consulted below. -/
def partial_sort_cmp (os : OrdSubset α) (a b : α) : Ordering :=
  match os.partial_cmp a b with
  | some ord => ord
  | none =>
    match os.is_outside_order a, os.is_outside_order b with
    | true, false => Ordering.gt
    | false, true => Ordering.lt
    | true, true => Ordering.gt
    | false, false => Ordering.eq

/-- Legacy `partial_sort` (src/lib.rs lines 104-119). -/
def partial_sort (os : OrdSubset α) (l : List α) : List α :=
  sort_by (partial_sort_cmp os) l

/-- Legacy `partial_binary_search` (src/lib.rs lines 121-130): panics (`none`)
when the searched-for value is outside the total order. -/
def partial_binary_search (os : OrdSubset α) (x : α) (s : List α) :
    Option (Except Nat Nat) :=
  if os.is_outside_order x then none
  else some (binary_search_by (fun other =>
    match os.is_outside_order other with
    | true => Ordering.gt
    | false => cmp_unwrap os other x) s)

/-- `impl OrdSubset for Option<T>` (src/ord_subset_trait.rs lines 114-119):
`self.as_ref().map_or(false, OrdSubset::is_outside_order)`. -/
def option_is_outside_order (os : OrdSubset α) (o : Option α) : Bool :=
  (o.map os.is_outside_order).getD false

/-- `impl OrdSubset for [T]` (src/ord_subset_trait.rs lines 242-247):
`self.iter().any(OrdSubset::is_outside_order)`; the `Vec<T>` and `[T; N]`
implementations delegate to the same predicate. -/
def slice_is_outside_order (os : OrdSubset α) (l : List α) : Bool :=
  l.any os.is_outside_order

/-- Two-element case of the `tuple_impls!` macro (src/ord_subset_trait.rs lines
250-265): the disjunction of the component predicates. -/
def pair_is_outside_order (osa : OrdSubset α) (osb : OrdSubset β) (p : α × β) :
    Bool :=
  osa.is_outside_order p.1 || osb.is_outside_order p.2

/-- Three-element case of the `tuple_impls!` macro. -/
def triple_is_outside_order (osa : OrdSubset α) (osb : OrdSubset β)
    (osc : OrdSubset γ) (p : α × β × γ) : Bool :=
  osa.is_outside_order p.1 || osb.is_outside_order p.2.1 || osc.is_outside_order p.2.2

/-- Model of `f64` restricted to the values the specification's scenarios use:
NaN, the two infinities, and finite values with an exact integer representation.
`partial_cmp` returns `none` whenever either operand is NaN and otherwise the
standard numeric comparison, exactly as IEEE `f64` behaves on these values. -/
inductive F64 where
  | nan : F64
  | ninf : F64
  | num : Int → F64
  | pinf : F64
deriving DecidableEq

/-- `PartialOrd::partial_cmp` for `f64`, restricted to the modelled values. -/
def F64.partial_cmp : F64 → F64 → Option Ordering
  | F64.nan, _ => none
  | _, F64.nan => none
  | F64.ninf, F64.ninf => some Ordering.eq
  | F64.ninf, _ => some Ordering.lt
  | _, F64.ninf => some Ordering.gt
  | F64.pinf, F64.pinf => some Ordering.eq
  | _, F64.pinf => some Ordering.lt
  | F64.pinf, _ => some Ordering.gt
  | F64.num a, F64.num b =>
    some (if a < b then Ordering.lt else if a = b then Ordering.eq else Ordering.gt)

/-- `impl OrdSubset for f64` (src/ord_subset_trait.rs lines 37-43): `*self !=
*self`, true exactly for NaN. -/
def F64.is_outside_order : F64 → Bool
  | F64.nan => true
  | _ => false

/-- The `OrdSubset` dictionary of `f64`. -/
def F64os : OrdSubset F64 :=
  ⟨F64.partial_cmp, F64.is_outside_order⟩

/-- Lawfulness of a comparator on the values a predicate `P` classifies as inside
the total order: antisymmetric swapping and transitivity of the induced
less-or-equal relation. This is exactly what the crate's `OrdSubset` contract
demands of `partial_cmp` on in-order values, phrased for an arbitrary comparator
as the `_by` sort entry points require. -/
structure LawfulCmp (P : α → Bool) (c : α → α → Ordering) : Prop where
  swap : ∀ a b, P a = false → P b = false → c a b = (c b a).swap
  le_trans : ∀ a b d, P a = false → P b = false → P d = false →
    c a b ≠ Ordering.gt → c b d ≠ Ordering.gt → c a d ≠ Ordering.gt

/-- The `OrdSubset` contract: on two in-order values `partial_cmp` returns a
definite result, and that result is a lawful total preorder comparison. -/
structure LawfulOrdSubset (os : OrdSubset α) : Prop where
  isSome_pc : ∀ a b, os.is_outside_order a = false → os.is_outside_order b = false →
    (os.partial_cmp a b).isSome = true
  lawful : LawfulCmp os.is_outside_order (cmp_unwrap os)

/-- Postcondition of the crate's sort entry points, phrased on output indices: an
element classified outside order is never followed by one inside order, and on two
in-order elements in their output order the comparator never answers `Greater`. -/
def SortPost (P : α → Bool) (c : α → α → Ordering) (out : List α) : Prop :=
  ∀ i j (hi : i < out.length) (hj : j < out.length), i < j →
    (P (out.get ⟨i, hi⟩) = true → P (out.get ⟨j, hj⟩) = true) ∧
    (P (out.get ⟨i, hi⟩) = false → P (out.get ⟨j, hj⟩) = false →
      c (out.get ⟨i, hi⟩) (out.get ⟨j, hj⟩) ≠ Ordering.gt)

def ordRank : Ordering → Nat
  | Ordering.lt => 0
  | Ordering.eq => 1
  | Ordering.gt => 2

/-- A slice sorted per the sort contract: pairwise, an outside-order element
never precedes an in-order one, and in-order pairs are ascending under
`partial_cmp`. This is exactly the postcondition established by the crate's sort
operations. -/
def ContractSorted (os : OrdSubset α) (l : List α) : Prop :=
  l.Pairwise (fun a b =>
    compare_unordered_greater_everything os.is_outside_order
      (fun u v => cmp_unwrap os u v) a b ≠ Ordering.gt)

/-- The sorted array of the specification's binary-search scenario:
`[0,1,1,1,1,2,3,5,8,13,21,34,55,NaN,NaN]`. -/
def exampleSlice : List F64 :=
  [F64.num 0, F64.num 1, F64.num 1, F64.num 1, F64.num 1, F64.num 2, F64.num 3,
   F64.num 5, F64.num 8, F64.num 13, F64.num 21, F64.num 34, F64.num 55,
   F64.nan, F64.nan]

theorem LawfulCmp.flip {P : α → Bool} {c : α → α → Ordering} (h : LawfulCmp P c) :
    LawfulCmp P (fun a b => c b a) := by
  constructor
  · intro a b ha hb
    exact h.swap b a hb ha
  · intro a b d ha hb hd hab hbd
    exact h.le_trans d b a hd hb ha hbd hab

theorem LawfulCmp.comap {P : α → Bool} {c : α → α → Ordering} (h : LawfulCmp P c)
    (f : γ → α) : LawfulCmp (fun x => P (f x)) (fun x y => c (f x) (f y)) := by
  constructor
  · intro a b ha hb
    exact h.swap (f a) (f b) ha hb
  · intro a b d ha hb hd hab hbd
    exact h.le_trans (f a) (f b) (f d) ha hb hd hab hbd

theorem cugE_total {P : α → Bool} {c : α → α → Ordering} (h : LawfulCmp P c)
    (a b : α) :
    compare_unordered_greater_everything P c a b ≠ Ordering.gt ∨
    compare_unordered_greater_everything P c b a ≠ Ordering.gt := by
  cases hpa : P a <;> cases hpb : P b <;>
    simp only [compare_unordered_greater_everything, hpa, hpb]
  · by_cases hab : c a b = Ordering.gt
    · right
      rw [h.swap b a hpb hpa, hab]
      simp [Ordering.swap]
    · exact Or.inl hab
  · left
    simp
  · right
    simp
  · left
    simp

theorem cugE_trans {P : α → Bool} {c : α → α → Ordering} (h : LawfulCmp P c)
    (a b d : α) :
    compare_unordered_greater_everything P c a b ≠ Ordering.gt →
    compare_unordered_greater_everything P c b d ≠ Ordering.gt →
    compare_unordered_greater_everything P c a d ≠ Ordering.gt := by
  cases hpa : P a <;> cases hpb : P b <;> cases hpd : P d <;>
    simp only [compare_unordered_greater_everything, hpa, hpb, hpd] <;>
    intro hab hbd <;>
    first
      | exact h.le_trans a b d hpa hpb hpd hab hbd
      | exact absurd rfl hab
      | exact absurd rfl hbd
      | decide

theorem sortPost_of_pairwise {P : α → Bool} {c : α → α → Ordering} {out : List α}
    (hp : out.Pairwise
      (fun a b => compare_unordered_greater_everything P c a b ≠ Ordering.gt)) :
    SortPost P c out := by
  intro i j hi hj hij
  have hrel := List.pairwise_iff_get.mp hp ⟨i, hi⟩ ⟨j, hj⟩ hij
  revert hrel
  cases hpa : P (out.get ⟨i, hi⟩) <;> cases hpb : P (out.get ⟨j, hj⟩) <;>
    simp only [compare_unordered_greater_everything, hpa, hpb] <;> intro hrel <;>
    simp_all

theorem pairwise_sort_by_cugE (P : α → Bool) (c : α → α → Ordering)
    (h : LawfulCmp P c) (l : List α) :
    (sort_by (fun a b => compare_unordered_greater_everything P c a b) l).Pairwise
      (fun a b => compare_unordered_greater_everything P c a b ≠ Ordering.gt) := by
  haveI : IsTotal α
      (fun a b => compare_unordered_greater_everything P c a b ≠ Ordering.gt) :=
    ⟨cugE_total h⟩
  haveI : IsTrans α
      (fun a b => compare_unordered_greater_everything P c a b ≠ Ordering.gt) :=
    ⟨cugE_trans h⟩
  exact List.sorted_insertionSort _ l

theorem sortPost_sort_by_cugE (P : α → Bool) (c : α → α → Ordering)
    (h : LawfulCmp P c) (l : List α) :
    SortPost P c (sort_by (fun a b => compare_unordered_greater_everything P c a b) l) :=
  sortPost_of_pairwise (pairwise_sort_by_cugE P c h l)

theorem perm_sort_by (compare : α → α → Ordering) (l : List α) :
    List.Perm (sort_by compare l) l :=
  List.perm_insertionSort _ l

theorem F64_lawfulCmp : LawfulCmp F64os.is_outside_order (cmp_unwrap F64os) := by
  constructor
  · intro a b ha hb
    cases a <;> cases b <;>
      simp_all only [F64os, F64.is_outside_order, cmp_unwrap, F64.partial_cmp,
        Option.getD_some, Option.getD_none] <;>
      try rfl
    rename_i x y
    rcases lt_trichotomy x y with hl | he | hg
    · have h1 : ¬y < x := by omega
      have h2 : y ≠ x := by omega
      simp [hl, h1, h2, Ordering.swap]
    · subst he
      simp [lt_irrefl, Ordering.swap]
    · have h1 : ¬x < y := by omega
      have h2 : x ≠ y := by omega
      simp [hg, h1, h2, Ordering.swap]
  · intro a b d ha hb hd hab hbd
    cases a <;> cases b <;> cases d <;>
      simp_all only [F64os, F64.is_outside_order, cmp_unwrap, F64.partial_cmp,
        Option.getD_some, Option.getD_none] <;>
      try decide
    all_goals
      first
        | exact absurd hb (by decide)
        | exact absurd rfl hab
        | exact absurd rfl hbd
        | (split_ifs at * <;> simp_all <;> omega)

theorem F64_lawfulOrdSubset : LawfulOrdSubset F64os := by
  constructor
  · intro a b ha hb
    cases a <;> cases b <;>
      simp_all [F64os, F64.is_outside_order, F64.partial_cmp]
  · exact F64_lawfulCmp

/-- C1: for every slice of an `OrdSubset` type, after any of the in-place sort
operations (`ord_subset_sort`, `ord_subset_sort_unstable`, and their `_by`,
`_by_key` and `_rev` variants), every in-order element that precedes another
in-order element in the output compares less-than-or-equal under the respective
comparator, and every outside-order element appears strictly after every in-order
element. For the `_by_key` variants, classification and comparison act on the
projected keys. -/
theorem sort_ops_sortPost {α β : Type} (os : OrdSubset α) (osB : OrdSubset β)
    (hos : LawfulOrdSubset os) (hosB : LawfulOrdSubset osB)
    (c : α → α → Ordering) (hc : LawfulCmp os.is_outside_order c)
    (f : α → β) (l : List α) :
    SortPost os.is_outside_order (cmp_unwrap os) (ord_subset_sort os l) ∧
    SortPost os.is_outside_order (cmp_unwrap os) (ord_subset_sort_unstable os l) ∧
    SortPost os.is_outside_order c (ord_subset_sort_by os c l) ∧
    SortPost os.is_outside_order c (ord_subset_sort_unstable_by os c l) ∧
    SortPost (fun x => osB.is_outside_order (f x))
      (fun a b => cmp_unwrap osB (f a) (f b)) (ord_subset_sort_by_key osB f l) ∧
    SortPost (fun x => osB.is_outside_order (f x))
      (fun a b => cmp_unwrap osB (f a) (f b)) (ord_subset_sort_unstable_by_key osB f l) ∧
    SortPost os.is_outside_order (fun a b => cmp_unwrap os b a)
      (ord_subset_sort_rev os l) ∧
    SortPost os.is_outside_order (fun a b => cmp_unwrap os b a)
      (ord_subset_sort_unstable_rev os l) :=
  ⟨sortPost_sort_by_cugE _ _ hos.lawful l,
   sortPost_sort_by_cugE _ _ hos.lawful l,
   sortPost_sort_by_cugE _ _ hc l,
   sortPost_sort_by_cugE _ _ hc l,
   sortPost_sort_by_cugE _ _ (hosB.lawful.comap f) l,
   sortPost_sort_by_cugE _ _ (hosB.lawful.comap f) l,
   sortPost_sort_by_cugE _ _ hos.lawful.flip l,
   sortPost_sort_by_cugE _ _ hos.lawful.flip l⟩

/-- Witness for C1 at a concrete `f64` slice. -/
theorem sort_ops_sortPost_witness :
    SortPost F64os.is_outside_order (cmp_unwrap F64os)
      (ord_subset_sort F64os
        [F64.num 5, F64.num 2, F64.pinf, F64.num 3, F64.nan, F64.ninf]) :=
  (sort_ops_sortPost F64os F64os F64_lawfulOrdSubset F64_lawfulOrdSubset
    (cmp_unwrap F64os) F64_lawfulCmp (fun x => x)
    [F64.num 5, F64.num 2, F64.pinf, F64.num 3, F64.nan, F64.ninf]).1

/-- C5 counterexample: the comparator of the legacy `partial_sort` (src/lib.rs
lines 104-119) ranks two values outside order (`NaN`, `NaN`) as `Greater`, not as
`Equal`, refuting the claim for that cited sort operation. -/
theorem partial_sort_cmp_nan_nan :
    F64os.is_outside_order F64.nan = true ∧
    partial_sort_cmp F64os F64.nan F64.nan = Ordering.gt ∧
    partial_sort_cmp F64os F64.nan F64.nan ≠ Ordering.eq := by
  refine ⟨rfl, rfl, ?_⟩
  decide

/-- C5 amended: for every pair of elements both outside order, the comparator
wrapper used by the `ord_subset_*` sort operations
(`compare_unordered_greater_everything`) ranks them as equal; the legacy
`partial_sort` comparator instead ranks them as `Greater` whenever their
`partial_cmp` is `None`. -/
theorem both_outside_order_comparators (os : OrdSubset α)
    (compare : α → α → Ordering) (a b : α)
    (ha : os.is_outside_order a = true) (hb : os.is_outside_order b = true) :
    compare_unordered_greater_everything os.is_outside_order compare a b =
      Ordering.eq ∧
    (os.partial_cmp a b = none → partial_sort_cmp os a b = Ordering.gt) := by
  constructor
  · simp [compare_unordered_greater_everything, ha, hb]
  · intro hnone
    simp [partial_sort_cmp, hnone, ha, hb]

/-- Witness for the amended C5 at `NaN`, `NaN`. -/
theorem both_outside_order_comparators_witness :
    compare_unordered_greater_everything F64os.is_outside_order
      (cmp_unwrap F64os) F64.nan F64.nan = Ordering.eq ∧
    (F64os.partial_cmp F64.nan F64.nan = none →
      partial_sort_cmp F64os F64.nan F64.nan = Ordering.gt) :=
  both_outside_order_comparators F64os (cmp_unwrap F64os) F64.nan F64.nan rfl rfl

/-- C6: the reverse-sort variants reverse only the comparison between two
in-order elements (in the output, earlier in-order elements compare
greater-or-equal, i.e. the reversed comparison never answers `Greater`); every
outside-order element still appears strictly after every in-order element, never
at the front. -/
theorem sort_rev_ops_sortPost {α : Type} (os : OrdSubset α)
    (hos : LawfulOrdSubset os) (l : List α) :
    SortPost os.is_outside_order (fun a b => cmp_unwrap os b a)
      (ord_subset_sort_rev os l) ∧
    SortPost os.is_outside_order (fun a b => cmp_unwrap os b a)
      (ord_subset_sort_unstable_rev os l) :=
  ⟨sortPost_sort_by_cugE _ _ hos.lawful.flip l,
   sortPost_sort_by_cugE _ _ hos.lawful.flip l⟩

/-- Witness for C6 at a concrete `f64` slice. -/
theorem sort_rev_ops_sortPost_witness :
    SortPost F64os.is_outside_order (fun a b => cmp_unwrap F64os b a)
      (ord_subset_sort_rev F64os
        [F64.num 5, F64.num 2, F64.pinf, F64.num 3, F64.nan, F64.ninf]) :=
  (sort_rev_ops_sortPost F64os F64_lawfulOrdSubset
    [F64.num 5, F64.num 2, F64.pinf, F64.num 3, F64.nan, F64.ninf]).1

/-- C10: every in-place sort operation produces a permutation of its input. -/
theorem sort_ops_perm {α β : Type} (os : OrdSubset α) (osB : OrdSubset β)
    (c : α → α → Ordering) (f : α → β) (l : List α) :
    List.Perm (ord_subset_sort os l) l ∧
    List.Perm (ord_subset_sort_unstable os l) l ∧
    List.Perm (ord_subset_sort_by os c l) l ∧
    List.Perm (ord_subset_sort_unstable_by os c l) l ∧
    List.Perm (ord_subset_sort_by_key osB f l) l ∧
    List.Perm (ord_subset_sort_unstable_by_key osB f l) l ∧
    List.Perm (ord_subset_sort_rev os l) l ∧
    List.Perm (ord_subset_sort_unstable_rev os l) l :=
  ⟨perm_sort_by _ l, perm_sort_by _ l, perm_sort_by _ l, perm_sort_by _ l,
   perm_sort_by _ l, perm_sort_by _ l, perm_sort_by _ l, perm_sort_by _ l⟩

theorem cmp_self_ne_gt {c : β → β → Ordering} {Q : β → Prop}
    (hswap : ∀ a b, Q a → Q b → c a b = (c b a).swap) {x : β} (hx : Q x) :
    c x x ≠ Ordering.gt := by
  intro hgt
  have h := hswap x x hx hx
  rw [hgt] at h
  exact absurd h (by decide)

theorem swap_ne_gt {c : β → β → Ordering} {Q : β → Prop}
    (hswap : ∀ a b, Q a → Q b → c a b = (c b a).swap) {a b : β}
    (ha : Q a) (hb : Q b) (h : c a b ≠ Ordering.lt) : c b a ≠ Ordering.gt := by
  intro hgt
  have hs := hswap b a hb ha
  rw [hgt] at hs
  cases hab : c a b <;> rw [hab] at hs
  · exact h hab
  · exact absurd hs (by decide)
  · exact absurd hs (by decide)

theorem lt_ne_gt {o : Ordering} (h : o = Ordering.lt) : o ≠ Ordering.gt := by
  rw [h]
  decide

theorem foldl_max_spec (c : β → β → Ordering) (Q : β → Prop)
    (hswap : ∀ a b, Q a → Q b → c a b = (c b a).swap)
    (htrans : ∀ a b d, Q a → Q b → Q d →
      c a b ≠ Ordering.gt → c b d ≠ Ordering.gt → c a d ≠ Ordering.gt) :
    ∀ (xs : List β) (x : β), Q x → (∀ y ∈ xs, Q y) →
      (List.foldl (fun acc y => if c y acc = Ordering.lt then acc else y) x xs) ∈
        x :: xs ∧
      ∀ y ∈ x :: xs,
        c y (List.foldl (fun acc y => if c y acc = Ordering.lt then acc else y) x xs) ≠
          Ordering.gt := by
  intro xs
  induction xs with
  | nil =>
    intro x hQx _
    refine ⟨by simp, ?_⟩
    intro y hy
    rw [List.mem_singleton] at hy
    subst hy
    exact cmp_self_ne_gt hswap hQx
  | cons y t ih =>
    intro x hQx hQ
    have hQy : Q y := hQ y (by simp)
    have hQt : ∀ z ∈ t, Q z := fun z hz => hQ z (by simp [hz])
    simp only [List.foldl_cons]
    by_cases hyx : c y x = Ordering.lt
    · rw [if_pos hyx]
      obtain ⟨hmem, hmax⟩ := ih x hQx hQt
      have hQr : Q (List.foldl (fun acc y => if c y acc = Ordering.lt then acc else y) x t) := by
        rcases List.mem_cons.mp hmem with h | h
        · rw [h]; exact hQx
        · exact hQt _ h
      refine ⟨?_, ?_⟩
      · rcases List.mem_cons.mp hmem with h | h
        · simp [h]
        · simp [h]
      · intro z hz
        rcases List.mem_cons.mp hz with h | h
        · subst h
          exact hmax z (by simp)
        · rcases List.mem_cons.mp h with h2 | h2
          · subst h2
            exact htrans z x _ hQy hQx hQr (lt_ne_gt hyx) (hmax x (by simp))
          · exact hmax z (by simp [h2])
    · rw [if_neg hyx]
      obtain ⟨hmem, hmax⟩ := ih y hQy hQt
      have hQr : Q (List.foldl (fun acc y => if c y acc = Ordering.lt then acc else y) y t) := by
        rcases List.mem_cons.mp hmem with h | h
        · rw [h]; exact hQy
        · exact hQt _ h
      refine ⟨?_, ?_⟩
      · rcases List.mem_cons.mp hmem with h | h
        · simp [h]
        · simp [h]
      · intro z hz
        rcases List.mem_cons.mp hz with h | h
        · subst h
          exact htrans z y _ hQx hQy hQr (swap_ne_gt hswap hQy hQx hyx)
            (hmax y (by simp))
        · exact hmax z h

theorem swap_gt_of_lt {c : β → β → Ordering} {Q : β → Prop}
    (hswap : ∀ a b, Q a → Q b → c a b = (c b a).swap) {a b : β}
    (ha : Q a) (hb : Q b) (h : c a b = Ordering.lt) : c b a = Ordering.gt := by
  have hs := hswap b a hb ha
  rw [h] at hs
  exact hs

theorem foldl_min_spec (c : β → β → Ordering) (Q : β → Prop)
    (hswap : ∀ a b, Q a → Q b → c a b = (c b a).swap)
    (htrans : ∀ a b d, Q a → Q b → Q d →
      c a b ≠ Ordering.gt → c b d ≠ Ordering.gt → c a d ≠ Ordering.gt) :
    ∀ (xs : List β) (x : β), Q x → (∀ y ∈ xs, Q y) →
      (List.foldl (fun acc y => if c y acc = Ordering.lt then y else acc) x xs) ∈
        x :: xs ∧
      (∀ y ∈ x :: xs,
        c (List.foldl (fun acc y => if c y acc = Ordering.lt then y else acc) x xs) y ≠
          Ordering.gt) ∧
      ∃ f₁ f₂, x :: xs =
          f₁ ++ (List.foldl (fun acc y => if c y acc = Ordering.lt then y else acc) x xs) :: f₂ ∧
        ∀ z ∈ f₁,
          c z (List.foldl (fun acc y => if c y acc = Ordering.lt then y else acc) x xs) =
            Ordering.gt := by
  intro xs
  induction xs with
  | nil =>
    intro x hQx _
    refine ⟨by simp, ?_, [], [], by simp, by simp⟩
    intro y hy
    rw [List.mem_singleton] at hy
    subst hy
    exact cmp_self_ne_gt hswap hQx
  | cons y t ih =>
    intro x hQx hQ
    have hQy : Q y := hQ y (by simp)
    have hQt : ∀ z ∈ t, Q z := fun z hz => hQ z (by simp [hz])
    simp only [List.foldl_cons]
    by_cases hyx : c y x = Ordering.lt
    · rw [if_pos hyx]
      obtain ⟨hmem, hmin, f₁, f₂, hdec, hgt⟩ := ih y hQy hQt
      have hQr : Q (List.foldl (fun acc y => if c y acc = Ordering.lt then y else acc) y t) := by
        rcases List.mem_cons.mp hmem with h | h
        · rw [h]; exact hQy
        · exact hQt _ h
      refine ⟨?_, ?_, x :: f₁, f₂, ?_, ?_⟩
      · rcases List.mem_cons.mp hmem with h | h
        · simp [h]
        · simp [h]
      · intro z hz
        rcases List.mem_cons.mp hz with h | h
        · subst h
          exact htrans _ y z hQr hQy hQx (hmin y (by simp)) (lt_ne_gt hyx)
        · exact hmin z h
      · rw [List.cons_append, ← hdec]
      · intro z hz
        rcases List.mem_cons.mp hz with h | h
        · subst h
          by_contra hne
          exact absurd (htrans z _ y hQx hQr hQy hne (hmin y (by simp)))
            (fun hc => hc (swap_gt_of_lt hswap hQy hQx hyx))
        · exact hgt z h
    · rw [if_neg hyx]
      obtain ⟨hmem, hmin, f₁, f₂, hdec, hgt⟩ := ih x hQx hQt
      have hQr : Q (List.foldl (fun acc y => if c y acc = Ordering.lt then y else acc) x t) := by
        rcases List.mem_cons.mp hmem with h | h
        · rw [h]; exact hQx
        · exact hQt _ h
      have hxy : c x y ≠ Ordering.gt := swap_ne_gt hswap hQy hQx hyx
      refine ⟨?_, ?_, ?_⟩
      · rcases List.mem_cons.mp hmem with h | h
        · simp [h]
        · simp [h]
      · intro z hz
        rcases List.mem_cons.mp hz with h | h
        · subst h
          exact hmin z (by simp)
        · rcases List.mem_cons.mp h with h2 | h2
          · subst h2
            exact htrans _ x z hQr hQx hQy (hmin x (by simp)) hxy
          · exact hmin z (by simp [h2])
      · cases f₁ with
        | nil =>
          rw [List.nil_append] at hdec
          injection hdec with hr ht
          refine ⟨[], y :: t, ?_, by simp⟩
          rw [List.nil_append, ← hr]
        | cons w f₁' =>
          rw [List.cons_append] at hdec
          injection hdec with hw ht
          subst hw
          have hxgt := hgt x (by simp)
          refine ⟨x :: y :: f₁', f₂, ?_, ?_⟩
          · rw [List.cons_append, List.cons_append, ← ht]
          · intro z hz
            rcases List.mem_cons.mp hz with h | h
            · subst h
              exact hxgt
            · rcases List.mem_cons.mp h with h2 | h2
              · subst h2
                by_contra hne
                exact htrans x z _ hQx hQy hQr hxy hne hxgt
              · exact hgt z (by simp [h2])

theorem ne_lt_of_swap {c : β → β → Ordering} {Q : β → Prop}
    (hswap : ∀ a b, Q a → Q b → c a b = (c b a).swap) {a b : β}
    (ha : Q a) (hb : Q b) (h : c a b ≠ Ordering.gt) : c b a ≠ Ordering.lt := by
  intro hlt
  have hs := hswap b a hb ha
  rw [hlt] at hs
  cases hab : c a b <;> rw [hab] at hs
  · exact absurd hs (by decide)
  · exact absurd hs (by decide)
  · exact h hab

theorem iterator_max_none_iff (c : β → β → Ordering) (fl : List β) :
    iterator_max c fl = none ↔ fl = [] := by
  cases fl <;> simp [iterator_max]

theorem iterator_min_none_iff (c : β → β → Ordering) (fl : List β) :
    iterator_min c fl = none ↔ fl = [] := by
  cases fl <;> simp [iterator_min]

theorem iterator_max_some (c : β → β → Ordering) (Q : β → Prop)
    (hswap : ∀ a b, Q a → Q b → c a b = (c b a).swap)
    (htrans : ∀ a b d, Q a → Q b → Q d →
      c a b ≠ Ordering.gt → c b d ≠ Ordering.gt → c a d ≠ Ordering.gt)
    (fl : List β) (hQ : ∀ y ∈ fl, Q y) (r : β) (h : iterator_max c fl = some r) :
    r ∈ fl ∧ ∀ y ∈ fl, c y r ≠ Ordering.gt := by
  cases fl with
  | nil => simp [iterator_max] at h
  | cons x xs =>
    simp only [iterator_max, Option.some.injEq] at h
    subst h
    exact foldl_max_spec c Q hswap htrans xs x (hQ x (by simp))
      (fun y hy => hQ y (by simp [hy]))

theorem iterator_min_some (c : β → β → Ordering) (Q : β → Prop)
    (hswap : ∀ a b, Q a → Q b → c a b = (c b a).swap)
    (htrans : ∀ a b d, Q a → Q b → Q d →
      c a b ≠ Ordering.gt → c b d ≠ Ordering.gt → c a d ≠ Ordering.gt)
    (fl : List β) (hQ : ∀ y ∈ fl, Q y) (r : β) (h : iterator_min c fl = some r) :
    r ∈ fl ∧ (∀ y ∈ fl, c r y ≠ Ordering.gt) ∧
      ∃ f₁ f₂, fl = f₁ ++ r :: f₂ ∧ ∀ z ∈ f₁, c z r = Ordering.gt := by
  cases fl with
  | nil => simp [iterator_min] at h
  | cons x xs =>
    simp only [iterator_min, Option.some.injEq] at h
    subst h
    exact foldl_min_spec c Q hswap htrans xs x (hQ x (by simp))
      (fun y hy => hQ y (by simp [hy]))

theorem new_checked_eq_some (os : OrdSubset α) (x : α) (v : OrdVar α) :
    OrdVar.new_checked os x = some v ↔
      os.is_outside_order x = false ∧ v = ⟨x⟩ := by
  unfold OrdVar.new_checked
  cases h : os.is_outside_order x <;> simp
  exact eq_comm

theorem new_checked_eq_none (os : OrdSubset α) (x : α) :
    OrdVar.new_checked os x = none ↔ os.is_outside_order x = true := by
  unfold OrdVar.new_checked
  cases h : os.is_outside_order x <;> simp

theorem mem_filterMap_new_checked (os : OrdSubset α) (l : List α) (v : OrdVar α) :
    v ∈ l.filterMap (OrdVar.new_checked os) ↔
      v.val ∈ l ∧ os.is_outside_order v.val = false := by
  rw [List.mem_filterMap]
  constructor
  · rintro ⟨b, hb, hsome⟩
    rw [new_checked_eq_some] at hsome
    obtain ⟨hb2, rfl⟩ := hsome
    exact ⟨hb, hb2⟩
  · rintro ⟨hv, ho⟩
    refine ⟨v.val, hv, ?_⟩
    rw [new_checked_eq_some]
    exact ⟨ho, rfl⟩

theorem filterMap_new_checked_eq_filter_map (os : OrdSubset α) (l : List α) :
    l.filterMap (OrdVar.new_checked os) =
      (l.filter (fun x => !os.is_outside_order x)).map OrdVar.new_unchecked := by
  induction l with
  | nil => rfl
  | cons x t ih =>
    rw [List.filterMap_cons, List.filter_cons]
    cases hx : os.is_outside_order x <;>
      simp only [OrdVar.new_checked, hx, Bool.not_false, Bool.not_true, if_pos,
        if_neg, List.map_cons, ih, cond_true, cond_false]
    · rfl
    · rfl

/-- C2: `partial_max` / `partial_min` return `none` exactly when every element of
the sequence is outside order (including the empty sequence); otherwise the
returned element is a member of the sequence, is inside order, and is
greater-or-equal (respectively less-or-equal) to every in-order element under the
comparator. The legacy `lib.rs` reductions compute the same results. -/
theorem reduction_max_min_spec {α : Type} (os : OrdSubset α)
    (hos : LawfulOrdSubset os) (l : List α) :
    (partial_max os l = none ↔ ∀ x ∈ l, os.is_outside_order x = true) ∧
    (partial_min os l = none ↔ ∀ x ∈ l, os.is_outside_order x = true) ∧
    (∀ m, partial_max os l = some m → m ∈ l ∧ os.is_outside_order m = false ∧
      ∀ x ∈ l, os.is_outside_order x = false → cmp_unwrap os m x ≠ Ordering.lt) ∧
    (∀ m, partial_min os l = some m → m ∈ l ∧ os.is_outside_order m = false ∧
      ∀ x ∈ l, os.is_outside_order x = false → cmp_unwrap os m x ≠ Ordering.gt) ∧
    legacy_partial_max os l = partial_max os l ∧
    legacy_partial_min os l = partial_min os l := by
  have hQfl : ∀ v ∈ l.filterMap (OrdVar.new_checked os),
      os.is_outside_order v.val = false :=
    fun v hv => ((mem_filterMap_new_checked os l v).mp hv).2
  have hswap : ∀ (a b : OrdVar α), os.is_outside_order a.val = false →
      os.is_outside_order b.val = false →
      OrdVar.cmp os a b = (OrdVar.cmp os b a).swap :=
    fun a b ha hb => hos.lawful.swap a.val b.val ha hb
  have htrans : ∀ (a b d : OrdVar α), os.is_outside_order a.val = false →
      os.is_outside_order b.val = false → os.is_outside_order d.val = false →
      OrdVar.cmp os a b ≠ Ordering.gt → OrdVar.cmp os b d ≠ Ordering.gt →
      OrdVar.cmp os a d ≠ Ordering.gt :=
    fun a b d ha hb hd => hos.lawful.le_trans a.val b.val d.val ha hb hd
  have hnone : ∀ x ∈ l, (os.is_outside_order x = true ↔ OrdVar.new_checked os x = none) :=
    fun x _ => (new_checked_eq_none os x).symm
  refine ⟨?_, ?_, ?_, ?_, ?_, ?_⟩
  · rw [partial_max, Option.map_eq_none', iterator_max_none_iff,
      List.filterMap_eq_nil_iff]
    exact ⟨fun h x hx => (hnone x hx).mpr (h x hx),
      fun h x hx => (hnone x hx).mp (h x hx)⟩
  · rw [partial_min, Option.map_eq_none', iterator_min_none_iff,
      List.filterMap_eq_nil_iff]
    exact ⟨fun h x hx => (hnone x hx).mpr (h x hx),
      fun h x hx => (hnone x hx).mp (h x hx)⟩
  · intro m hm
    rw [partial_max, Option.map_eq_some'] at hm
    obtain ⟨r, hr, hrm⟩ := hm
    obtain ⟨hrmem, hrmax⟩ := iterator_max_some (OrdVar.cmp os)
      (fun v => os.is_outside_order v.val = false) hswap htrans _ hQfl r hr
    obtain ⟨hml, hmo⟩ := (mem_filterMap_new_checked os l r).mp hrmem
    subst hrm
    refine ⟨hml, hmo, ?_⟩
    intro x hx hxo
    have hxin : (⟨x⟩ : OrdVar α) ∈ l.filterMap (OrdVar.new_checked os) :=
      (mem_filterMap_new_checked os l ⟨x⟩).mpr ⟨hx, hxo⟩
    exact ne_lt_of_swap hswap hxo hmo (hrmax ⟨x⟩ hxin)
  · intro m hm
    rw [partial_min, Option.map_eq_some'] at hm
    obtain ⟨r, hr, hrm⟩ := hm
    obtain ⟨hrmem, hrmin, _⟩ := iterator_min_some (OrdVar.cmp os)
      (fun v => os.is_outside_order v.val = false) hswap htrans _ hQfl r hr
    obtain ⟨hml, hmo⟩ := (mem_filterMap_new_checked os l r).mp hrmem
    subst hrm
    refine ⟨hml, hmo, ?_⟩
    intro x hx hxo
    have hxin : (⟨x⟩ : OrdVar α) ∈ l.filterMap (OrdVar.new_checked os) :=
      (mem_filterMap_new_checked os l ⟨x⟩).mpr ⟨hx, hxo⟩
    exact hrmin ⟨x⟩ hxin
  · rw [legacy_partial_max, partial_max, filterMap_new_checked_eq_filter_map]
  · rw [legacy_partial_min, partial_min, filterMap_new_checked_eq_filter_map]

/-- Witness for C2: on `[2.0, 3.0, 5.0, NaN]` the maximum reduction returns
`5.0`, which is in the list, in order, and not below any in-order element. -/
theorem reduction_max_min_spec_witness :
    F64.num 5 ∈ [F64.num 2, F64.num 3, F64.num 5, F64.nan] ∧
    F64os.is_outside_order (F64.num 5) = false ∧
    ∀ x ∈ [F64.num 2, F64.num 3, F64.num 5, F64.nan],
      F64os.is_outside_order x = false →
        cmp_unwrap F64os (F64.num 5) x ≠ Ordering.lt :=
  (reduction_max_min_spec F64os F64_lawfulOrdSubset
    [F64.num 2, F64.num 3, F64.num 5, F64.nan]).2.2.1 (F64.num 5) (by decide)

theorem filterMap_decomp (g : α → Option γ) :
    ∀ (l : List α) (f₁ : List γ) (v : γ) (f₂ : List γ),
      l.filterMap g = f₁ ++ v :: f₂ →
      ∃ l₁ w l₂, l = l₁ ++ w :: l₂ ∧ g w = some v ∧ l₁.filterMap g = f₁ := by
  intro l
  induction l with
  | nil =>
    intro f₁ v f₂ h
    rw [List.filterMap_nil] at h
    exact absurd h.symm (List.append_ne_nil_of_right_ne_nil f₁ (by simp))
  | cons x t ih =>
    intro f₁ v f₂ h
    rw [List.filterMap_cons] at h
    cases hgx : g x with
    | none =>
      rw [hgx] at h
      obtain ⟨l₁, w, l₂, hl, hw, hf⟩ := ih f₁ v f₂ h
      exact ⟨x :: l₁, w, l₂, by rw [List.cons_append, hl], hw,
        by rw [List.filterMap_cons, hgx, hf]⟩
    | some u =>
      rw [hgx] at h
      cases f₁ with
      | nil =>
        rw [List.nil_append] at h
        injection h with hu hrest
        exact ⟨[], x, t, by simp, by rw [hgx, hu], by simp⟩
      | cons w' f₁' =>
        rw [List.cons_append] at h
        injection h with hu hrest
        obtain ⟨l₁, w, l₂, hl, hw, hf⟩ := ih f₁' v f₂ hrest
        exact ⟨x :: l₁, w, l₂, by rw [List.cons_append, hl], hw,
          by rw [List.filterMap_cons, hgx, hf, hu]⟩

/-- C7: whenever the sequence contains an in-order element, `partial_min` returns
the earliest minimal in-order element of the iteration order: the list splits as
`l₁ ++ m :: l₂` where `m` is the returned minimum (in order and less-or-equal to
every in-order element), and everything before `m` is either outside order or
strictly greater than `m` — in particular every in-order element comparing equal
to the minimum occurs at or after `m`'s position. -/
theorem partial_min_earliest {α : Type} (os : OrdSubset α)
    (hos : LawfulOrdSubset os) (l : List α) (x : α) (hx : x ∈ l)
    (hxo : os.is_outside_order x = false) :
    ∃ m l₁ l₂, partial_min os l = some m ∧ os.is_outside_order m = false ∧
      l = l₁ ++ m :: l₂ ∧
      (∀ y ∈ l, os.is_outside_order y = false → cmp_unwrap os m y ≠ Ordering.gt) ∧
      (∀ z ∈ l₁, os.is_outside_order z = true ∨ cmp_unwrap os z m = Ordering.gt) := by
  have hQfl : ∀ v ∈ l.filterMap (OrdVar.new_checked os),
      os.is_outside_order v.val = false :=
    fun v hv => ((mem_filterMap_new_checked os l v).mp hv).2
  have hswap : ∀ (a b : OrdVar α), os.is_outside_order a.val = false →
      os.is_outside_order b.val = false →
      OrdVar.cmp os a b = (OrdVar.cmp os b a).swap :=
    fun a b ha hb => hos.lawful.swap a.val b.val ha hb
  have htrans : ∀ (a b d : OrdVar α), os.is_outside_order a.val = false →
      os.is_outside_order b.val = false → os.is_outside_order d.val = false →
      OrdVar.cmp os a b ≠ Ordering.gt → OrdVar.cmp os b d ≠ Ordering.gt →
      OrdVar.cmp os a d ≠ Ordering.gt :=
    fun a b d ha hb hd => hos.lawful.le_trans a.val b.val d.val ha hb hd
  have hxin : (⟨x⟩ : OrdVar α) ∈ l.filterMap (OrdVar.new_checked os) :=
    (mem_filterMap_new_checked os l ⟨x⟩).mpr ⟨hx, hxo⟩
  obtain ⟨r, hr⟩ : ∃ r, iterator_min (OrdVar.cmp os)
      (l.filterMap (OrdVar.new_checked os)) = some r := by
    cases hfl : l.filterMap (OrdVar.new_checked os) with
    | nil => rw [hfl] at hxin; exact absurd hxin (by simp)
    | cons v vs => exact ⟨_, rfl⟩
  obtain ⟨hrmem, hrmin, f₁, f₂, hdec, hgt⟩ := iterator_min_some (OrdVar.cmp os)
    (fun v => os.is_outside_order v.val = false) hswap htrans _ hQfl r hr
  have hro : os.is_outside_order r.val = false :=
    ((mem_filterMap_new_checked os l r).mp hrmem).2
  obtain ⟨l₁, w, l₂, hl, hw, hf⟩ :=
    filterMap_decomp (OrdVar.new_checked os) l f₁ r f₂ hdec
  obtain ⟨hwo, hwr⟩ := (new_checked_eq_some os w r).mp hw
  refine ⟨r.val, l₁, l₂, ?_, hro, ?_, ?_, ?_⟩
  · rw [partial_min, hr, Option.map_some']
    rfl
  · rw [hl, hwr]
  · intro y hy hyo
    have hyin : (⟨y⟩ : OrdVar α) ∈ l.filterMap (OrdVar.new_checked os) :=
      (mem_filterMap_new_checked os l ⟨y⟩).mpr ⟨hy, hyo⟩
    exact hrmin ⟨y⟩ hyin
  · intro z hz
    cases hzo : os.is_outside_order z with
    | true => exact Or.inl rfl
    | false =>
      refine Or.inr ?_
      have hzin : (⟨z⟩ : OrdVar α) ∈ l₁.filterMap (OrdVar.new_checked os) :=
        (mem_filterMap_new_checked os l₁ ⟨z⟩).mpr ⟨hz, hzo⟩
      rw [hf] at hzin
      exact hgt ⟨z⟩ hzin

/-- Witness for C7: in `[3.0, NaN, 2.0, 2.0]` the two `2.0` entries tie for the
minimum and the reduction returns the earlier one. -/
theorem partial_min_earliest_witness :
    ∃ m l₁ l₂,
      partial_min F64os [F64.num 3, F64.nan, F64.num 2, F64.num 2] = some m ∧
      F64os.is_outside_order m = false ∧
      [F64.num 3, F64.nan, F64.num 2, F64.num 2] = l₁ ++ m :: l₂ ∧
      (∀ y ∈ [F64.num 3, F64.nan, F64.num 2, F64.num 2],
        F64os.is_outside_order y = false →
          cmp_unwrap F64os m y ≠ Ordering.gt) ∧
      (∀ z ∈ l₁, F64os.is_outside_order z = true ∨
        cmp_unwrap F64os z m = Ordering.gt) :=
  partial_min_earliest F64os F64_lawfulOrdSubset
    [F64.num 3, F64.nan, F64.num 2, F64.num 2] (F64.num 2) (by decide) (by decide)

/-- C4: for every search target outside the total order, the binary-search
operations that take a target value (`ord_subset_binary_search`,
`ord_subset_binary_search_by_key`, `ord_subset_binary_search_rev`, and the legacy
`partial_binary_search`) panic deterministically (modelled as `none`) instead of
returning a result, on every slice. -/
theorem binary_search_outside_order_panics {α β : Type} (os : OrdSubset α)
    (osB : OrdSubset β) (x : α) (b : β) (f : α → β) (s : List α)
    (hx : os.is_outside_order x = true) (hb : osB.is_outside_order b = true) :
    ord_subset_binary_search os x s = none ∧
    ord_subset_binary_search_rev os x s = none ∧
    ord_subset_binary_search_by_key osB b f s = none ∧
    partial_binary_search os x s = none := by
  refine ⟨?_, ?_, ?_, ?_⟩
  · rw [ord_subset_binary_search, if_pos hx]
  · rw [ord_subset_binary_search_rev, if_pos hx]
  · rw [ord_subset_binary_search_by_key, if_pos hb]
  · rw [partial_binary_search, if_pos hx]

/-- Witness for C4 at `NaN` on a nonempty `f64` slice. -/
theorem binary_search_outside_order_panics_witness :
    ord_subset_binary_search F64os F64.nan [F64.num 1, F64.num 2] = none ∧
    ord_subset_binary_search_rev F64os F64.nan [F64.num 1, F64.num 2] = none ∧
    ord_subset_binary_search_by_key F64os F64.nan (fun v => v)
      [F64.num 1, F64.num 2] = none ∧
    partial_binary_search F64os F64.nan [F64.num 1, F64.num 2] = none :=
  binary_search_outside_order_panics F64os F64os F64.nan F64.nan (fun v => v)
    [F64.num 1, F64.num 2] rfl rfl

/-- C8: the structural `OrdSubset` implementations classify a composite value as
outside order exactly when at least one constituent is outside order: an `Option`
is outside order iff it holds an outside-order value, a slice (also `Vec` and
fixed-size arrays, which delegate to it) iff some element is outside order, and a
tuple iff some component is outside order. -/
theorem composite_is_outside_order_iff {α β γ : Type} (os : OrdSubset α)
    (osb : OrdSubset β) (osc : OrdSubset γ) (o : Option α) (l : List α)
    (p : α × β) (t : α × β × γ) :
    (option_is_outside_order os o = true ↔
      ∃ x, o = some x ∧ os.is_outside_order x = true) ∧
    (slice_is_outside_order os l = true ↔
      ∃ x ∈ l, os.is_outside_order x = true) ∧
    (pair_is_outside_order os osb p = true ↔
      os.is_outside_order p.1 = true ∨ osb.is_outside_order p.2 = true) ∧
    (triple_is_outside_order os osb osc t = true ↔
      os.is_outside_order t.1 = true ∨ osb.is_outside_order t.2.1 = true ∨
        osc.is_outside_order t.2.2 = true) := by
  refine ⟨?_, ?_, ?_, ?_⟩
  · cases o with
    | none => simp [option_is_outside_order]
    | some x => simp [option_is_outside_order]
  · simp [slice_is_outside_order, List.any_eq_true]
  · simp [pair_is_outside_order, Bool.or_eq_true]
  · simp [triple_is_outside_order, Bool.or_eq_true, or_assoc]

/-- C9: checked construction of the ordered wrapper succeeds exactly on in-order
values, never panics, and round-trips: for in-order `x` it yields a wrapper whose
`into_inner` is `x` unchanged; for outside-order `x` it returns `none`. -/
theorem ordVar_new_checked_roundtrip {α : Type} (os : OrdSubset α) (x : α) :
    (os.is_outside_order x = false →
      ∃ v, OrdVar.new_checked os x = some v ∧ OrdVar.into_inner v = x) ∧
    (os.is_outside_order x = true → OrdVar.new_checked os x = none) := by
  constructor
  · intro hx
    exact ⟨⟨x⟩, (new_checked_eq_some os x ⟨x⟩).mpr ⟨hx, rfl⟩, rfl⟩
  · intro hx
    exact (new_checked_eq_none os x).mpr hx

/-- Witness for C9 at `2.0` and `NaN`. -/
theorem ordVar_new_checked_roundtrip_witness :
    (∃ v, OrdVar.new_checked F64os (F64.num 2) = some v ∧
      OrdVar.into_inner v = F64.num 2) ∧
    OrdVar.new_checked F64os F64.nan = none :=
  ⟨(ordVar_new_checked_roundtrip F64os (F64.num 2)).1 rfl,
   (ordVar_new_checked_roundtrip F64os F64.nan).2 rfl⟩

theorem ordRank_le_zero {o : Ordering} (h : ordRank o ≤ 0) : o = Ordering.lt := by
  cases o <;> simp [ordRank] at h ⊢

theorem ordRank_le_one {o : Ordering} (h : ordRank o ≤ 1) : o ≠ Ordering.gt := by
  cases o <;> simp [ordRank] at h ⊢

theorem ordRank_ge_two {o : Ordering} (h : 2 ≤ ordRank o) : o = Ordering.gt := by
  cases o <;> simp [ordRank] at h ⊢

theorem ordRank_le_two (o : Ordering) : ordRank o ≤ 2 := by
  cases o <;> simp [ordRank]

theorem bsGo_spec (g : Nat → Ordering) (n : Nat)
    (mono : ∀ i j, i ≤ j → j < n → ordRank (g i) ≤ ordRank (g j)) :
    ∀ fuel size base, size ≤ fuel → 1 ≤ size → base + size ≤ n →
    (∀ i, i < base → g i ≠ Ordering.gt) →
    (∀ i, base + size ≤ i → i < n → g i = Ordering.gt) →
    (∀ e, e < n → g e = Ordering.eq →
      ∃ k, base ≤ k ∧ k < base + size ∧ g k = Ordering.eq) →
    (∀ j, bsGo g fuel base size = Except.ok j → j < n ∧ g j = Ordering.eq) ∧
    (∀ k, bsGo g fuel base size = Except.error k → k ≤ n ∧
      (∀ i, i < k → g i = Ordering.lt) ∧
      (∀ i, k ≤ i → i < n → g i = Ordering.gt)) := by
  intro fuel
  induction fuel with
  | zero =>
    intro size base hsf h1 _ _ _ _
    omega
  | succ fuel ih =>
    intro size base hsf h1 hsum hA hB hC
    by_cases hs1 : size ≤ 1
    · have hsize : size = 1 := by omega
      subst hsize
      rw [bsGo, if_pos hs1]
      cases hgb : g base
      · refine ⟨fun j hj => absurd hj (by simp), fun k hk => ?_⟩
        injection hk with hk
        subst hk
        refine ⟨by omega, ?_, ?_⟩
        · intro i hi
          have hm := mono i base (by omega) (by omega)
          rw [hgb] at hm
          exact ordRank_le_zero (by simpa [ordRank] using hm)
        · intro i hi hin
          exact hB i (by omega) hin
      · refine ⟨fun j hj => ?_, fun k hk => absurd hk (by simp)⟩
        injection hj with hj
        subst hj
        exact ⟨by omega, hgb⟩
      · refine ⟨fun j hj => absurd hj (by simp), fun k hk => ?_⟩
        injection hk with hk
        subst hk
        refine ⟨by omega, ?_, ?_⟩
        · intro i hi
          cases hgi : g i
          · rfl
          · obtain ⟨k, hk1, hk2, hk3⟩ := hC i (by omega) hgi
            have hkb : k = base := by omega
            rw [hkb, hgb] at hk3
            exact absurd hk3 (by decide)
          · exact absurd hgi (hA i hi)
        · intro i hi hin
          rcases Nat.eq_or_lt_of_le hi with h | h
          · rw [← h]
            exact hgb
          · exact hB i (by omega) hin
    · rw [bsGo, if_neg hs1]
      dsimp only
      have hhalf1 : 1 ≤ size / 2 := by omega
      have hhalflt : size / 2 < size := by omega
      have hmidn : base + size / 2 < n := by omega
      cases hgm : g (base + size / 2)
      · exact ih (size - size / 2) (base + size / 2) (by omega) (by omega) (by omega)
          (fun i hi => by
            rcases Nat.lt_or_ge i base with h | h
            · exact hA i h
            · have hm := mono i (base + size / 2) (by omega) hmidn
              rw [hgm] at hm
              intro hgi
              rw [hgi] at hm
              simp [ordRank] at hm)
          (fun i hi hin => hB i (by omega) hin)
          (fun e he hge => by
            obtain ⟨k, hk1, hk2, hk3⟩ := hC e he hge
            have hkmid : base + size / 2 ≤ k := by
              by_contra hlt
              have hm := mono k (base + size / 2) (by omega) hmidn
              rw [hgm, hk3] at hm
              simp [ordRank] at hm
            exact ⟨k, hkmid, by omega, hk3⟩)
      · exact ih (size - size / 2) (base + size / 2) (by omega) (by omega) (by omega)
          (fun i hi => by
            rcases Nat.lt_or_ge i base with h | h
            · exact hA i h
            · have hm := mono i (base + size / 2) (by omega) hmidn
              rw [hgm] at hm
              intro hgi
              rw [hgi] at hm
              simp [ordRank] at hm)
          (fun i hi hin => hB i (by omega) hin)
          (fun e he hge => by
            obtain ⟨k, hk1, hk2, hk3⟩ := hC e he hge
            rcases Nat.lt_or_ge k (base + size / 2) with h | h
            · exact ⟨base + size / 2, le_refl _, by omega, hgm⟩
            · exact ⟨k, h, by omega, hk3⟩)
      · exact ih (size - size / 2) base (by omega) (by omega) (by omega)
          hA
          (fun i hi hin => by
            rcases Nat.lt_or_ge i (base + size) with h | h
            · have hm := mono (base + size / 2) i (by omega) hin
              rw [hgm] at hm
              exact ordRank_ge_two (by simpa [ordRank] using hm)
            · exact hB i h hin)
          (fun e he hge => by
            obtain ⟨k, hk1, hk2, hk3⟩ := hC e he hge
            have hkmid : k < base + size / 2 := by
              by_contra hge2
              have hm := mono (base + size / 2) k (by omega) (by omega)
              rw [hgm, hk3] at hm
              simp [ordRank] at hm
            exact ⟨k, hk1, by omega, hk3⟩)

theorem probe_eq_get (f : α → Ordering) (s : List α) (i : Nat) (hi : i < s.length) :
    probe f s i = f (s.get ⟨i, hi⟩) := by
  rw [probe, List.get?_eq_get hi]

theorem binary_search_by_spec (f : α → Ordering) (s : List α)
    (mono : ∀ i j (hi : i < s.length) (hj : j < s.length), i ≤ j →
      ordRank (f (s.get ⟨i, hi⟩)) ≤ ordRank (f (s.get ⟨j, hj⟩))) :
    (∀ j, binary_search_by f s = Except.ok j →
      ∃ hj : j < s.length, f (s.get ⟨j, hj⟩) = Ordering.eq) ∧
    (∀ k, binary_search_by f s = Except.error k → k ≤ s.length ∧
      (∀ i (hi : i < s.length), i < k → f (s.get ⟨i, hi⟩) = Ordering.lt) ∧
      (∀ i (hi : i < s.length), k ≤ i → f (s.get ⟨i, hi⟩) = Ordering.gt)) := by
  by_cases hlen : s.length = 0
  · rw [binary_search_by, if_pos hlen]
    refine ⟨fun j hj => absurd hj (by simp), fun k hk => ?_⟩
    injection hk with hk
    subst hk
    exact ⟨by omega, fun i hi h0 => by omega, fun i hi _ => by omega⟩
  · rw [binary_search_by, if_neg hlen]
    have hmono : ∀ i j, i ≤ j → j < s.length →
        ordRank (probe f s i) ≤ ordRank (probe f s j) := by
      intro i j hij hj
      have hi : i < s.length := by omega
      rw [probe_eq_get f s i hi, probe_eq_get f s j hj]
      exact mono i j hi hj hij
    obtain ⟨hok, herr⟩ := bsGo_spec (probe f s) s.length hmono s.length s.length 0
      (le_refl _) (by omega) (by omega)
      (fun i hi => by omega)
      (fun i hi hin => by omega)
      (fun e he hge => ⟨e, by omega, by omega, hge⟩)
    constructor
    · intro j hj
      obtain ⟨hjn, hje⟩ := hok j hj
      refine ⟨hjn, ?_⟩
      rw [← probe_eq_get f s j hjn]
      exact hje
    · intro k hk
      obtain ⟨hkn, hlt, hgt⟩ := herr k hk
      refine ⟨hkn, ?_, ?_⟩
      · intro i hi hik
        rw [← probe_eq_get f s i hi]
        exact hlt i hik
      · intro i hi hki
        rw [← probe_eq_get f s i hi]
        exact hgt i hki hi

theorem rank_mono_target {os : OrdSubset α} (hos : LawfulOrdSubset os) {a b x : α}
    (ha : os.is_outside_order a = false) (hb : os.is_outside_order b = false)
    (hx : os.is_outside_order x = false)
    (hab : cmp_unwrap os a b ≠ Ordering.gt) :
    ordRank (cmp_unwrap os a x) ≤ ordRank (cmp_unwrap os b x) := by
  have hswap : ∀ u v : α, os.is_outside_order u = false →
      os.is_outside_order v = false →
      cmp_unwrap os u v = (cmp_unwrap os v u).swap := hos.lawful.swap
  cases hbx : cmp_unwrap os b x with
  | lt =>
    have hax : cmp_unwrap os a x = Ordering.lt := by
      by_contra hne
      have hxa : cmp_unwrap os x a ≠ Ordering.gt :=
        swap_ne_gt (Q := fun z => os.is_outside_order z = false) hswap ha hx hne
      have hxb : cmp_unwrap os x b ≠ Ordering.gt :=
        hos.lawful.le_trans x a b hx ha hb hxa hab
      have hgtxb : cmp_unwrap os x b = Ordering.gt :=
        swap_gt_of_lt (Q := fun z => os.is_outside_order z = false) hswap hb hx hbx
      exact hxb hgtxb
    rw [hax]
  | eq =>
    have hbx' : cmp_unwrap os b x ≠ Ordering.gt := by
      rw [hbx]
      decide
    have hax : cmp_unwrap os a x ≠ Ordering.gt :=
      hos.lawful.le_trans a b x ha hb hx hab hbx'
    cases hax2 : cmp_unwrap os a x
    · simp [ordRank]
    · simp [ordRank]
    · exact absurd hax2 hax
  | gt =>
    exact ordRank_le_two _

/-- C3: on a slice sorted per the sort contract with an in-order search target,
`ord_subset_binary_search` returns `Ok(j)` with the element at `j` comparing
equal to the target whenever a match exists, and otherwise `Err(k)` where `k` is
an insertion index that maintains the sort contract; concretely, on
`[0,1,1,1,1,2,3,5,8,13,21,34,55,NaN,NaN]`, searching `13` yields `Ok(9)`,
searching `4` yields `Err(7)`, searching `100` yields `Err(13)` and searching
`+Infinity` yields `Err(13)`. -/
theorem binary_search_correct {α : Type} (os : OrdSubset α)
    (hos : LawfulOrdSubset os) (l : List α) (x : α) (hs : ContractSorted os l)
    (hx : os.is_outside_order x = false) :
    ((∃ (i : Nat) (hi : i < l.length), os.is_outside_order (l.get ⟨i, hi⟩) = false ∧
        cmp_unwrap os (l.get ⟨i, hi⟩) x = Ordering.eq) →
      ∃ (j : Nat) (hj : j < l.length),
        ord_subset_binary_search os x l = some (Except.ok j) ∧
        os.is_outside_order (l.get ⟨j, hj⟩) = false ∧
        cmp_unwrap os (l.get ⟨j, hj⟩) x = Ordering.eq) ∧
    ((∀ i (hi : i < l.length), os.is_outside_order (l.get ⟨i, hi⟩) = false →
        cmp_unwrap os (l.get ⟨i, hi⟩) x ≠ Ordering.eq) →
      ∃ k, ord_subset_binary_search os x l = some (Except.error k) ∧
        k ≤ l.length ∧ ContractSorted os (l.take k ++ x :: l.drop k)) ∧
    (ord_subset_binary_search F64os (F64.num 13) exampleSlice =
        some (Except.ok 9) ∧
      ord_subset_binary_search F64os (F64.num 4) exampleSlice =
        some (Except.error 7) ∧
      ord_subset_binary_search F64os (F64.num 100) exampleSlice =
        some (Except.error 13) ∧
      ord_subset_binary_search F64os F64.pinf exampleSlice =
        some (Except.error 13)) := by
  have hswap : ∀ u v : α, os.is_outside_order u = false →
      os.is_outside_order v = false →
      cmp_unwrap os u v = (cmp_unwrap os v u).swap := hos.lawful.swap
  set F : α → Ordering := fun other =>
    match os.is_outside_order other with
    | true => Ordering.gt
    | false => cmp_unwrap os other x with hF
  have hFtrue : ∀ a, os.is_outside_order a = true → F a = Ordering.gt := by
    intro a ha
    rw [hF]
    simp only [ha]
  have hFfalse : ∀ a, os.is_outside_order a = false →
      F a = cmp_unwrap os a x := by
    intro a ha
    rw [hF]
    simp only [ha]
  have hres : ord_subset_binary_search os x l = some (binary_search_by F l) := by
    rw [ord_subset_binary_search, if_neg (by simp [hx])]
    rfl
  have hpw := List.pairwise_iff_get.mp hs
  have hmono : ∀ i j (hi : i < l.length) (hj : j < l.length), i ≤ j →
      ordRank (F (l.get ⟨i, hi⟩)) ≤ ordRank (F (l.get ⟨j, hj⟩)) := by
    intro i j hi hj hij
    rcases Nat.eq_or_lt_of_le hij with heq | hlt
    · subst heq
      exact le_of_eq rfl
    · have hrel := hpw ⟨i, hi⟩ ⟨j, hj⟩ hlt
      cases hja : os.is_outside_order (l.get ⟨j, hj⟩)
      · cases hia : os.is_outside_order (l.get ⟨i, hi⟩)
        · simp only [compare_unordered_greater_everything, hia, hja] at hrel
          rw [hFfalse _ hia, hFfalse _ hja]
          exact rank_mono_target hos hia hja hx hrel
        · simp only [compare_unordered_greater_everything, hia, hja] at hrel
          exact absurd rfl hrel
      · rw [hFtrue _ hja]
        exact ordRank_le_two _
  obtain ⟨hok, herr⟩ := binary_search_by_spec F l hmono
  refine ⟨?_, ?_, rfl, rfl, rfl, rfl⟩
  · rintro ⟨i, hi, hio, hieq⟩
    cases hres2 : binary_search_by F l with
    | ok j =>
      obtain ⟨hj, hje⟩ := hok j hres2
      cases hjo : os.is_outside_order (l.get ⟨j, hj⟩)
      · refine ⟨j, hj, ?_, hjo, ?_⟩
        · rw [hres, hres2]
        · rw [hFfalse _ hjo] at hje
          exact hje
      · rw [hFtrue _ hjo] at hje
        exact absurd hje (by decide)
    | error k =>
      obtain ⟨hkn, hlt, hgt⟩ := herr k hres2
      have hFi : F (l.get ⟨i, hi⟩) = Ordering.eq := by
        rw [hFfalse _ hio]
        exact hieq
      rcases Nat.lt_or_ge i k with h | h
      · exact absurd ((hlt i hi h).symm.trans hFi) (by decide)
      · exact absurd ((hgt i hi h).symm.trans hFi) (by decide)
  · intro hmiss
    cases hres2 : binary_search_by F l with
    | ok j =>
      obtain ⟨hj, hje⟩ := hok j hres2
      cases hjo : os.is_outside_order (l.get ⟨j, hj⟩)
      · rw [hFfalse _ hjo] at hje
        exact absurd hje (hmiss j hj hjo)
      · rw [hFtrue _ hjo] at hje
        exact absurd hje (by decide)
    | error k =>
      obtain ⟨hkn, hlt, hgt⟩ := herr k hres2
      refine ⟨k, ?_, hkn, ?_⟩
      · rw [hres, hres2]
      · have hps : (l.take k ++ l.drop k).Pairwise (fun a b =>
            compare_unordered_greater_everything os.is_outside_order
              (fun u v => cmp_unwrap os u v) a b ≠ Ordering.gt) := by
          rw [List.take_append_drop]
          exact hs
        rw [List.pairwise_append] at hps
        obtain ⟨hp1, hp2, hcross⟩ := hps
        have htake : ∀ a ∈ l.take k, os.is_outside_order a = false ∧
            cmp_unwrap os a x = Ordering.lt := by
          intro a ha
          obtain ⟨i, hlen, hai⟩ := List.mem_iff_getElem.mp ha
          have hik : i < k := by
            rw [List.length_take] at hlen
            omega
          have hil : i < l.length := by
            rw [List.length_take] at hlen
            omega
          have haeq : l.get ⟨i, hil⟩ = a := by
            rw [← hai, List.getElem_take]
            rfl
          have hFa : F a = Ordering.lt := by
            rw [← haeq]
            exact hlt i hil hik
          cases hao : os.is_outside_order a
          · refine ⟨rfl, ?_⟩
            rw [hFfalse _ hao] at hFa
            exact hFa
          · rw [hFtrue _ hao] at hFa
            exact absurd hFa (by decide)
        have hdrop : ∀ b ∈ l.drop k, os.is_outside_order b = true ∨
            (os.is_outside_order b = false ∧
              cmp_unwrap os b x = Ordering.gt) := by
          intro b hb
          obtain ⟨i, hlen, hbi⟩ := List.mem_iff_getElem.mp hb
          have hil : k + i < l.length := by
            rw [List.length_drop] at hlen
            omega
          have hbeq : l.get ⟨k + i, hil⟩ = b := by
            rw [← hbi, List.getElem_drop]
            rfl
          have hFb : F b = Ordering.gt := by
            rw [← hbeq]
            exact hgt (k + i) hil (by omega)
          cases hbo : os.is_outside_order b
          · refine Or.inr ⟨rfl, ?_⟩
            rw [hFfalse _ hbo] at hFb
            exact hFb
          · exact Or.inl rfl
        rw [ContractSorted, List.pairwise_append]
        refine ⟨hp1, ?_, ?_⟩
        · rw [List.pairwise_cons]
          refine ⟨?_, hp2⟩
          intro b hb
          rcases hdrop b hb with hbo | ⟨hbo, hbgt⟩
          · simp only [compare_unordered_greater_everything, hx, hbo]
            decide
          · show compare_unordered_greater_everything os.is_outside_order
              (fun u v => cmp_unwrap os u v) x b ≠ Ordering.gt
            simp only [compare_unordered_greater_everything, hx, hbo]
            show cmp_unwrap os x b ≠ Ordering.gt
            have hxb := hswap x b hx hbo
            rw [hxb, hbgt]
            decide
        · intro a ha b hb
          obtain ⟨hao, halt⟩ := htake a ha
          rcases List.mem_cons.mp hb with rfl | hbdrop
          · show compare_unordered_greater_everything os.is_outside_order
              (fun u v => cmp_unwrap os u v) a b ≠ Ordering.gt
            simp only [compare_unordered_greater_everything, hao, hx]
            show cmp_unwrap os a b ≠ Ordering.gt
            rw [halt]
            decide
          · exact hcross a ha b hbdrop

/-- Witness for C3: the theorem applied at the specification's concrete sorted
array with target `13`, yielding the four concrete scenario results. -/
theorem binary_search_correct_witness :
    ord_subset_binary_search F64os (F64.num 13) exampleSlice =
      some (Except.ok 9) ∧
    ord_subset_binary_search F64os (F64.num 4) exampleSlice =
      some (Except.error 7) ∧
    ord_subset_binary_search F64os (F64.num 100) exampleSlice =
      some (Except.error 13) ∧
    ord_subset_binary_search F64os F64.pinf exampleSlice =
      some (Except.error 13) :=
  (binary_search_correct F64os F64_lawfulOrdSubset exampleSlice (F64.num 13)
    (by unfold ContractSorted; decide) (by decide)).2.2
